import Mathlib

set_option linter.unusedSectionVars false

/-!
Verification development for the OPTIMET multiple-scattering assembly-and-solve
engine. The definitions below are a shallow embedding of `src/Solver.cpp`
(functions `preconditioned_scattering_matrix`, `source_vector`,
`local_source_vector`, `Solver::populateDirect`, `Solver::populateIndirect`,
`Solver::SH`, `Solver::update`, `Solver::convertIndirect`,
`Solver::solveInternal`, `Solver::solve`) together with the data model of
`Scatterer.h`. Collaborators whose implementation is not part of the sources
(the coupling engine, the scatterer registry's local operators, the excitation
projection, the harmonics indexer) are modelled from the specification, as
noted in each doc comment. Scalar arithmetic of `complex<double>` is idealised
as an arbitrary commutative ring `α`; positions are an arbitrary type `V` with
subtraction (only displacements `vR_i - vR_j` are ever formed).
-/

/-- Modelled from the spec: `HarmonicsIterator::max_flat` (absent from src/),
the count of harmonic pairs (n, m) with degree at most `nMax`, which the spec
fixes as `nMax*(nMax+2) + 1`. -/
def maxFlat (nMax : ℕ) : ℕ := nMax * (nMax + 2) + 1

/-- Per-polarization block size used throughout `Solver.cpp`:
`HarmonicsIterator::max_flat(nMax) - 1`. -/
def flatMaxOf (nMax : ℕ) : ℕ := maxFlat nMax - 1

/-- Dynamically sized matrix, the embedding of Eigen's `Matrix<t_complex>`:
a pair of extents together with an entry function. Entries outside
`rows × cols` are irrelevant junk, exactly as unconstrained memory is. -/
structure MatD (α : Type) where
  rows : ℕ
  cols : ℕ
  entry : ℕ → ℕ → α

variable {α : Type} [CommRing α] [DecidableEq α] {V : Type} [Sub V]

/-- Identity matrix of extent `n`, embedding `Matrix<t_complex>::Identity`. -/
def matId (n : ℕ) : MatD α :=
  ⟨n, n, fun r c => if r = c then 1 else 0⟩

/-- Entrywise negation, embedding the unary `-` on an Eigen matrix. -/
def matNeg (A : MatD α) : MatD α :=
  ⟨A.rows, A.cols, fun r c => -(A.entry r c)⟩

/-- Matrix product, embedding Eigen's `operator*`: entry (r, c) is the sum
over the inner dimension `A.cols`. -/
def matMul (A B : MatD α) : MatD α :=
  ⟨A.rows, B.cols, fun r c =>
    ((List.range A.cols).map (fun k => A.entry r k * B.entry k c)).sum⟩

/-- Matrix–vector product, embedding Eigen's `operator*` with a vector;
vectors are lists, read with default 0 beyond their length. -/
def matVecMul (A : MatD α) (v : List α) : List α :=
  (List.range A.rows).map (fun r =>
    ((List.range A.cols).map (fun k => A.entry r k * v.getD k 0)).sum)

/-- Modelled from the spec: the output of the coupling/translation engine
(`Coupling`, absent from src/) for one ordered scatterer pair: two square
`B × B` coefficient tables, `diag` for same-polarization coupling and
`offdiag` for cross-polarization coupling. -/
structure CouplingE (α : Type) where
  diag : ℕ → ℕ → α
  offdiag : ℕ → ℕ → α

/-- Entry function of the `2B × 2B` translation operator assembled in
`Solver.cpp` from a coupling pair: the two same-polarization quadrants hold
`diagonal.transpose()` and the two cross-polarization quadrants hold
`offdiagonal.transpose()` (note the transposes: entry (r, c) reads the
coupling table at (c, r)). -/
def couplingBlockEntry (B : ℕ) (C : CouplingE α) (r c : ℕ) : α :=
  if r < B then
    (if c < B then C.diag c r else C.offdiag (c - B) r)
  else
    (if c < B then C.offdiag c (r - B) else C.diag (c - B) (r - B))

/-- The `2B × 2B` coupling block as a matrix. -/
def couplingBlockMat (B : ℕ) (C : CouplingE α) : MatD α :=
  ⟨2 * B, 2 * B, couplingBlockEntry B C⟩

/-- Embedding of the `Scatterer` record of `Scatterer.h`: center, maximum
harmonic degree, radius and the source-coefficient buffer, together with the
two registry-supplied per-object operators the solver consumes (spec §6):
`tLocal` is the local T-matrix (`getTLocal`, evaluated against the background
medium) and `iaux` the diagonal internal-auxiliary operator (`getIaux`); both
implementations are absent from src/ and enter only as data. The
electromagnetic material parameters influence the model only through these
operators and are not represented separately. -/
structure Scat (α V : Type) where
  vR : V
  nMax : ℕ
  radius : ℚ
  sourceCoef : List α
  tLocal : MatD α
  iaux : List α

instance [Inhabited V] : Inhabited (Scat α V) :=
  ⟨{ vR := default, nMax := 0, radius := 0, sourceCoef := [],
     tLocal := ⟨0, 0, fun _ _ => 0⟩, iaux := [] }⟩

/-- Modelled from the spec: the oracle surface of the external collaborators
(spec §6), none of which is implemented under src/. `inc` is the excitation's
`getIncLocal` at a scatterer center; `getSourceLocal` reads a scatterer's
second-harmonic local source vector (a function of its populated
source-coefficient buffer); `derivedSource r i` is the buffer content that
second-harmonic source population (`setSourcesSingle`, driven by the
first-harmonic result `r`) derives for scatterer `i`; `coupling d nMax` is the
coupling engine's output for displacement `d`. -/
structure Env (α V : Type) where
  inc : V → List α
  getSourceLocal : Scat α V → List α
  derivedSource : ℕ → ℕ → List α
  coupling : V → ℕ → CouplingE α

variable [Inhabited V]

/-- Modelled from the spec: `Geometry::setSourcesSingle` (absent from src/)
runs second-harmonic source population for first-harmonic result `r`,
overwriting every scatterer's source-coefficient buffer with the newly derived
local sources and touching nothing else (spec §3, Scatterer lifecycle). -/
def setSourcesSingle (env : Env α V) (r : ℕ) (g : List (Scat α V)) :
    List (Scat α V) :=
  (List.range g.length).map (fun i =>
    { g.getD i default with sourceCoef := env.derivedSource r i })

/-- The uniform-degree guard of `Solver.cpp`: every scatterer's `nMax` must
equal the front scatterer's. -/
def uniformNMax (g : List (Scat α V)) : Bool :=
  match g with
  | [] => true
  | o :: rest => (o :: rest).all (fun s => decide (s.nMax = o.nMax))

/-- Message thrown by the mixed-degree guards in `Solver.cpp`. -/
def harmonicsErr : String :=
  "All objects must have same number of harmonics"

/-- Message thrown by `Solver::solve` on an invalid scalapack context. -/
def contextErr : String :=
  "Scalapack context is invalid"

/-- Per-scatterer concatenation built by the iterator-level `source_vector`:
block i is the incoming excitation at scatterer i's center. -/
def sourceList (env : Env α V) (g : List (Scat α V)) : List α :=
  (g.map (fun s => env.inc s.vR)).flatten

/-- Embedding of `source_vector(Geometry const&, Excitation const&)`
(`Solver.cpp:350`): an empty geometry yields the empty vector; a mixed-degree
geometry throws; otherwise the per-scatterer excitation blocks are
concatenated. -/
def source_vector (env : Env α V) (g : List (Scat α V)) :
    Except String (List α) :=
  match g with
  | [] => .ok []
  | o :: rest =>
    if uniformNMax (o :: rest) then .ok (sourceList env (o :: rest))
    else .error harmonicsErr

/-- Per-scatterer concatenation built by `local_source_vector` after source
population: block i is scatterer i's local source, read from the freshly
overwritten buffers. -/
def localSourceList (env : Env α V) (r : ℕ) (g : List (Scat α V)) : List α :=
  ((setSourcesSingle env r g).map env.getSourceLocal).flatten

/-- Embedding of `local_source_vector` (`Solver.cpp:361`): empty geometry
yields the empty vector, mixed degrees throw before any population runs,
otherwise second-harmonic population runs and the per-scatterer local sources
are concatenated. -/
def local_source_vector (env : Env α V) (r : ℕ) (g : List (Scat α V)) :
    Except String (List α) :=
  match g with
  | [] => .ok []
  | o :: rest =>
    if uniformNMax (o :: rest) then .ok (localSourceList env r (o :: rest))
    else .error harmonicsErr

/-- Block (i, j) of the indirect (preconditioned) scattering matrix of
`Solver.cpp:227`: the identity on the diagonal; off the diagonal the
`2B × 2B` coupling block for displacement `vR_i - vR_j`, multiplied on the
right by `factor = -T_j` (Eigen's `block *= factor` right-multiplies). -/
def precondBlockAt (env : Env α V) (nm : ℕ) (g : List (Scat α V))
    (i j : ℕ) : MatD α :=
  if i = j then matId (2 * flatMaxOf nm)
  else
    matMul
      (couplingBlockMat (flatMaxOf nm)
        (env.coupling ((g.getD i default).vR - (g.getD j default).vR) nm))
      (matNeg (g.getD j default).tLocal)

/-- The full indirect matrix assembled block by block, as the double iterator
loop of `Solver.cpp:240` does: the flat entry (p, q) lives in block
(p / 2B, q / 2B) at offset (p % 2B, q % 2B); the block writes are disjoint. -/
def precondCore (env : Env α V) (g : List (Scat α V)) (nm : ℕ) : MatD α :=
  ⟨2 * flatMaxOf nm * g.length, 2 * flatMaxOf nm * g.length, fun p q =>
    (precondBlockAt env nm g (p / (2 * flatMaxOf nm)) (q / (2 * flatMaxOf nm))).entry
      (p % (2 * flatMaxOf nm)) (q % (2 * flatMaxOf nm))⟩

/-- Embedding of `preconditioned_scattering_matrix(Geometry const&, ...)`
(`Solver.cpp:266`): a 0-object geometry yields the 0×0 matrix, a mixed-degree
geometry throws, otherwise the block matrix is assembled with the front
scatterer's degree. -/
def preconditioned_scattering_matrix (env : Env α V) (g : List (Scat α V)) :
    Except String (MatD α) :=
  match g with
  | [] => .ok ⟨0, 0, fun _ _ => 0⟩
  | o :: rest =>
    if uniformNMax (o :: rest) then .ok (precondCore env (o :: rest) o.nMax)
    else .error harmonicsErr

/-- Block (i, j) of the direct system matrix of `Solver::populateDirect`
(`Solver.cpp:76`): identity on the diagonal, otherwise `-T_i * T_AB` with the
row scatterer's local T-matrix multiplied on the left of the coupling block
for displacement `vR_i - vR_j`. -/
def directBlockAt (env : Env α V) (nm : ℕ) (g : List (Scat α V))
    (i j : ℕ) : MatD α :=
  if i = j then matId (2 * flatMaxOf nm)
  else
    matMul (matNeg (g.getD i default).tLocal)
      (couplingBlockMat (flatMaxOf nm)
        (env.coupling ((g.getD i default).vR - (g.getD j default).vR) nm))

/-- Embedding of `Solver::populateDirect` (`Solver.cpp:56`). When a
first-harmonic result is held, second-harmonic source population runs first
and each local source block is read back from the geometry; otherwise the
incoming excitation is used. Block row i of Q is `T_i * Q_local`; S is
assembled block by block. The function performs no degree check and cannot
fail: all its collaborators are total (spec §4.2 and §6 declare no failure
modes for them). -/
def populateDirect (env : Env α V) (nm : ℕ) (rFF : Option ℕ)
    (g0 : List (Scat α V)) : List (Scat α V) × MatD α × List α :=
  let g := match rFF with
    | some r => setSourcesSingle env r g0
    | none => g0
  let B := flatMaxOf nm
  let S : MatD α :=
    ⟨2 * B * g.length, 2 * B * g.length, fun p q =>
      (directBlockAt env nm g (p / (2 * B)) (q / (2 * B))).entry
        (p % (2 * B)) (q % (2 * B))⟩
  let Qloc : ℕ → List α := fun i =>
    match rFF with
    | some _ => env.getSourceLocal (g.getD i default)
    | none => env.inc ((g.getD i default).vR)
  let Q : List α :=
    ((List.range g.length).map (fun i =>
      matVecMul (g.getD i default).tLocal (Qloc i))).flatten
  (g, S, Q)

/-- The two assembly formulations selected by the solver-method flag. -/
inductive SolverMethod
  | direct
  | indirect
deriving DecidableEq

/-- Embedding of `Solver::populate` (`Solver.cpp:45`): dispatch to the direct
or indirect assembler. The direct path never fails; the indirect path
(`Solver::populateIndirect`, `Solver.cpp:149`) builds Q from the
second-harmonic local sources when a first-harmonic result is held and from
the excitation otherwise, then builds S; its mixed-degree guards propagate as
errors. The geometry component of the result carries the buffer overwrites of
second-harmonic source population (spec §3: the buffers are overwritten
whenever it runs; the `Scatterer::sourceCoef` raw pointer of `Scatterer.h` is
shared by the geometry copy that `local_source_vector` populates). -/
def populateE (env : Env α V) (method : SolverMethod) (nm : ℕ)
    (rFF : Option ℕ) (g : List (Scat α V)) :
    Except String (List (Scat α V) × MatD α × List α) :=
  match method with
  | .direct => .ok (populateDirect env nm rFF g)
  | .indirect =>
    match rFF with
    | some r =>
      match local_source_vector env r g with
      | .error e => .error e
      | .ok Q =>
        match preconditioned_scattering_matrix env g with
        | .error e => .error e
        | .ok S => .ok (setSourcesSingle env r g, S, Q)
    | none =>
      match source_vector env g with
      | .error e => .error e
      | .ok Q =>
        match preconditioned_scattering_matrix env g with
        | .error e => .error e
        | .ok S => .ok (g, S, Q)

/-- Embedding of the `Solver` facade state (`Solver.h` members used by
`Solver.cpp`): geometry, solver-level degree, the held first-harmonic result
pointer (`result_FF`, `none` embeds `nullptr`), the method flag and the
assembled system S, Q. Result pointers are modelled as naturals. -/
structure SolverState (α V : Type) where
  geometry : List (Scat α V)
  nMax : ℕ
  resultFF : Option ℕ
  method : SolverMethod
  S : MatD α
  Q : List α

/-- Re-run `populate` on a solver state, storing the rebuilt system. -/
def populateSolver (env : Env α V) (s : SolverState α V) :
    Except String (SolverState α V) :=
  (populateE env s.method s.nMax s.resultFF s.geometry).map
    (fun t => { s with geometry := t.1, S := t.2.1, Q := t.2.2 })

/-- Embedding of `Solver::SH` (`Solver.cpp:128`): if the argument differs from
the held result pointer, store it and re-populate; otherwise do nothing. -/
def SH (env : Env α V) (s : SolverState α V) (r : Option ℕ) :
    Except String (SolverState α V) :=
  if r = s.resultFF then .ok s
  else populateSolver env { s with resultFF := r }

/-- Embedding of `Solver::update` (`Solver.cpp:157`): install the new
geometry, excitation (carried by `env`) and degree, clear the held
first-harmonic result pointer, and re-populate. -/
def update (env : Env α V) (g' : List (Scat α V)) (n' : ℕ)
    (s : SolverState α V) : Except String (SolverState α V) :=
  populateSolver env { s with geometry := g', nMax := n', resultFF := none }

/-- Embedding of `Solver::convertIndirect` (`Solver.cpp:119`): block i of the
result is `T_i` times block i of the solved vector, with block stride
`N = 2 * (max_flat(nMax) - 1)`. -/
def convertIndirect (g : List (Scat α V)) (nm : ℕ) (x : List α) : List α :=
  ((List.range g.length).map (fun i =>
    matVecMul (g.getD i default).tLocal
      ((x.drop (i * (2 * flatMaxOf nm))).take (2 * flatMaxOf nm)))).flatten

/-- Embedding of `Solver::solveInternal` (`Solver.cpp:138`): the
internal-auxiliary blocks of all scatterers are laid out contiguously and
multiplied element-wise against the scattered vector. -/
def solveInternal (g : List (Scat α V)) (x : List α) : List α :=
  List.zipWith (fun a b => a * b) ((g.map (fun s => s.iaux)).flatten) x

/-- Embedding of the serial path of `Solver::solve` (`Solver.cpp:94`): an
invalid context throws; otherwise the backend `lin` solves S·x = Q, the
indirect method converts the solution to scattered-coefficient space, and the
internal coefficients are derived. -/
def solveE (lin : MatD α → List α → List α) (ctxValid : Bool)
    (s : SolverState α V) : Except String (List α × List α) :=
  if ctxValid then
    let x0 := lin s.S s.Q
    let xsca := if s.method = .indirect then convertIndirect s.geometry s.nMax x0 else x0
    .ok (xsca, solveInternal s.geometry xsca)
  else .error contextErr

/-- Boolean success of an `Except` value. -/
def exceptOk {ε β : Type} (e : Except ε β) : Bool :=
  match e with
  | .ok _ => true
  | .error _ => false

/-- Modelled from the spec: the state of `CachedCoAxialRecurrence` (its
implementation is absent from src/; only its unit tests are present). It is
scoped to one displacement magnitude `R`, one wavenumber and one
regular-or-singular selector (the latter two shape only the numeric seed
values and are carried inside `core`). `core n m l` is the memoized
recurrence table — seeded from the closed-form spherical-Bessel /
spherical-harmonic product formula and filled through the three-term n- and
two-term m-recurrences of spec §4.2 — which the spec's fill order (ascending
non-negative order, then ascending degree, §9) keys by `0 ≤ m` and
`0 ≤ n ≤ l`; its numeric content is abstract here. -/
structure CachedCoAxialRecurrence (α : Type) where
  R : ℚ
  regular : Bool
  core : ℤ → ℤ → ℤ → α

/-- Modelled from the spec: the accessor `CachedCoAxialRecurrence::operator()`
(absent from src/). Out-of-range triples (negative degree, `l < 0`, or an
order exceeding `min n l`) return exactly zero without invoking the
recurrence; displacement 0 degenerates to the identity self-coupling as a
special case, never computed through the recurrence; otherwise the table is
consulted, realising the two §3 invariants structurally: the order is reduced
to `|m|` (m-sign independence) and an access with `l < n` resolves through the
n↔l exchange identity with sign `(-1)^(n+l)`. -/
def tca (t : CachedCoAxialRecurrence α) (n m l : ℤ) : α :=
  if l < 0 ∨ n < 0 ∨ min n l < |m| then 0
  else if t.R = 0 then (if l = n then 1 else 0)
  else if l < n then (-1 : α) ^ (n + l).toNat * t.core l |m| n
  else t.core n |m| l

/-- Concrete instantiation used by witnesses and counterexamples: scalar type
ℤ, positions ℤ. The coupling oracle returns a zero same-polarization table
and an identity cross-polarization table; the excitation and source oracles
return simple length-6 blocks (degree 1, so B = 3 and 2B = 6). -/
def envZ : Env ℤ ℤ where
  inc := fun v => [v, 1, 0, 0, 0, 2]
  getSourceLocal := fun s => s.sourceCoef
  derivedSource := fun r i => [(r : ℤ), (i : ℤ), 1, 0, 0, 0]
  coupling := fun _ _ => ⟨fun _ _ => 0, fun r c => if r = c then 1 else 0⟩

/-- First concrete scatterer: degree 1, center 0, local T-matrix
diag(1, 2, 3, 4, 5, 6). -/
def scatA : Scat ℤ ℤ where
  vR := 0
  nMax := 1
  radius := 1
  sourceCoef := [7, 7, 7, 7, 7, 7]
  tLocal := ⟨6, 6, fun r c => if r = c then (r : ℤ) + 1 else 0⟩
  iaux := [1, 2, 1, 2, 1, 2]

/-- Second concrete scatterer: degree 1, center 1, same local T-matrix. -/
def scatB : Scat ℤ ℤ :=
  { scatA with vR := 1, sourceCoef := [8, 8, 8, 8, 8, 8] }

/-- A two-scatterer geometry of uniform degree 1. -/
def gZ : List (Scat ℤ ℤ) := [scatA, scatB]

/-- A two-scatterer geometry with mismatched degrees 1 and 2. -/
def gMis : List (Scat ℤ ℤ) := [scatA, { scatA with nMax := 2 }]

/-- The indirect matrix the code assembles for `gZ`. -/
def sZ : MatD ℤ := precondCore envZ gZ 1

/-- Coefficient table with nonzero displacement used by witnesses. -/
def tZ : CachedCoAxialRecurrence ℤ := ⟨1, true, fun _ _ _ => 2⟩

/-- Coefficient table with zero displacement used by witnesses. -/
def t0Z : CachedCoAxialRecurrence ℤ := ⟨0, true, fun _ _ _ => 5⟩

/-- C5: the cached coaxial translation coefficient is independent of the sign
of the order: T(n, m, l) = T(n, -m, l), for every displacement, selector and
triple. -/
theorem c5_m_symmetry (t : CachedCoAxialRecurrence α) (n m l : ℤ) :
    tca t n m l = tca t n (-m) l := by
  simp only [tca, abs_neg]

/-- C4: the cached coaxial translation coefficient obeys the n↔l exchange
symmetry T(n, m, l) = (-1)^(n+l) · T(l, m, n) on every valid triple. -/
theorem c4_exchange_symmetry (t : CachedCoAxialRecurrence α) (n m l : ℤ)
    (hn : 0 ≤ n) (hl : 0 ≤ l) :
    tca t n m l = (-1 : α) ^ (n + l).toNat * tca t l m n := by
  have h1 : ¬ l < 0 := not_lt.mpr hl
  have h2 : ¬ n < 0 := not_lt.mpr hn
  have hsq : ∀ k : ℕ, (-1 : α) ^ k * (-1 : α) ^ k = 1 := by
    intro k
    rw [← pow_add]
    exact Even.neg_one_pow ⟨k, rfl⟩
  have heven : ∀ a : ℤ, 0 ≤ a → (-1 : α) ^ (a + a).toNat = 1 := by
    intro a ha
    rw [Int.toNat_add ha ha]
    exact Even.neg_one_pow ⟨a.toNat, rfl⟩
  by_cases hm : min n l < |m|
  · have hm' : min l n < |m| := by rwa [min_comm]
    simp [tca, h1, h2, hm, hm']
  · have hm' : ¬ min l n < |m| := by rwa [min_comm]
    by_cases hR : t.R = 0
    · by_cases heq : l = n
      · subst heq
        simp [tca, h1, h2, hm, hm', hR, heven l hl]
      · have heq' : ¬ n = l := fun h => heq h.symm
        simp [tca, h1, h2, hm, hm', hR, heq, heq']
    · rcases lt_trichotomy l n with hln | heq | hnl
      · have hnl' : ¬ n < l := not_lt.mpr (le_of_lt hln)
        simp [tca, h1, h2, hm, hm', hR, hln, hnl']
      · subst heq
        have : ¬ l < l := lt_irrefl l
        simp [tca, h1, h2, hm, hm', hR, this, heven l hl]
      · have hln' : ¬ l < n := not_lt.mpr (le_of_lt hnl)
        simp only [tca, h1, h2, hm, hm', hR, hnl, hln', if_false,
          false_or, ite_false, ite_true]
        rw [← mul_assoc, add_comm l n, hsq, one_mul]

/-- C4 witness: the exchange symmetry applied at the concrete table `tZ` and
triple (1, 0, 2). -/
theorem c4_witness :
    (0 : ℤ) ≤ 1 ∧ (0 : ℤ) ≤ 2 ∧
      tca tZ 1 0 2 = (-1 : ℤ) ^ ((1 : ℤ) + 2).toNat * tca tZ 2 0 1 :=
  ⟨by decide, by decide, c4_exchange_symmetry tZ 1 0 2 (by decide) (by decide)⟩

/-- C3: with zero displacement the cached coefficient degenerates to the
identity self-coupling — T(n, m, n) = 1 and T(n, m, l) = 0 for l ≠ n — and no
value depends on the recurrence core (the special case bypasses the
recurrence). -/
theorem c3_zero_displacement (t : CachedCoAxialRecurrence α) (n m : ℤ)
    (h0 : t.R = 0) (hm : |m| ≤ n) :
    tca t n m n = 1 ∧ (∀ l : ℤ, l ≠ n → tca t n m l = 0) ∧
      (∀ core1 core2 : ℤ → ℤ → ℤ → α, ∀ l : ℤ,
        tca ⟨t.R, t.regular, core1⟩ n m l = tca ⟨t.R, t.regular, core2⟩ n m l) := by
  have hn : 0 ≤ n := le_trans (abs_nonneg m) hm
  have h2 : ¬ n < 0 := not_lt.mpr hn
  refine ⟨?_, ?_, ?_⟩
  · have hmin : ¬ min n n < |m| := by simpa using not_lt.mpr hm
    have hg : ¬ (n < 0 ∨ n < 0 ∨ min n n < |m|) := by
      rintro (h | h | h)
      · exact h2 h
      · exact h2 h
      · exact hmin h
    unfold tca
    rw [if_neg hg, if_pos h0, if_pos rfl]
  · intro l hl
    by_cases hg : l < 0 ∨ n < 0 ∨ min n l < |m|
    · unfold tca
      rw [if_pos hg]
    · unfold tca
      rw [if_neg hg, if_pos h0, if_neg hl]
  · intro core1 core2 l
    by_cases hg : l < 0 ∨ n < 0 ∨ min n l < |m|
    · unfold tca
      rw [if_pos hg, if_pos hg]
    · unfold tca
      rw [if_neg hg, if_neg hg, if_pos h0, if_pos h0]

/-- C3 witness: the zero-displacement identity applied at the concrete table
`t0Z` and pair (1, -1). -/
theorem c3_witness :
    t0Z.R = 0 ∧ |(-1 : ℤ)| ≤ (1 : ℤ) ∧
      (tca t0Z 1 (-1) 1 = 1 ∧ (∀ l : ℤ, l ≠ 1 → tca t0Z 1 (-1) l = 0) ∧
        (∀ core1 core2 : ℤ → ℤ → ℤ → ℤ, ∀ l : ℤ,
          tca ⟨t0Z.R, t0Z.regular, core1⟩ 1 (-1) l =
            tca ⟨t0Z.R, t0Z.regular, core2⟩ 1 (-1) l)) :=
  ⟨rfl, by decide, c3_zero_displacement t0Z 1 (-1) rfl (by decide)⟩

/-- Division and remainder of an in-block flat index: the flat position
`b * i + r` with `r < b` lies in block `i` at offset `r`. -/
theorem blockIndex_div_mod (b i r : ℕ) (h : r < b) :
    (b * i + r) / b = i ∧ (b * i + r) % b = r := by
  have hb : 0 < b := lt_of_le_of_lt (Nat.zero_le r) h
  constructor
  · rw [Nat.mul_add_div hb, Nat.div_eq_of_lt h, Nat.add_zero]
  · rw [Nat.mul_add_mod, Nat.mod_eq_of_lt h]

/-- C1 (amended): in the indirect (preconditioned) system matrix of a
uniform-degree geometry, every off-diagonal block (i, j) equals the coupling
block C(i, j) for displacement `center_i - center_j` multiplied on the right
by the negated local T-matrix of scatterer j — that is, `-C(i,j) · T_j_local`,
the product in the opposite order to `-T_j_local · C(i,j)` — and every
diagonal block is the identity. -/
theorem c1_indirect_blocks (env : Env α V) (g : List (Scat α V)) (nm : ℕ)
    (S : MatD α) (hS : preconditioned_scattering_matrix env g = .ok S)
    (hnm : ∀ a ∈ g, a.nMax = nm) (i j r c : ℕ)
    (hi : i < g.length) (hj : j < g.length)
    (hr : r < 2 * flatMaxOf nm) (hc : c < 2 * flatMaxOf nm) :
    (i ≠ j →
      S.entry (2 * flatMaxOf nm * i + r) (2 * flatMaxOf nm * j + c) =
        (matMul
          (couplingBlockMat (flatMaxOf nm)
            (env.coupling ((g.getD i default).vR - (g.getD j default).vR) nm))
          (matNeg (g.getD j default).tLocal)).entry r c) ∧
    S.entry (2 * flatMaxOf nm * i + r) (2 * flatMaxOf nm * i + c) =
      (if r = c then (1 : α) else 0) := by
  cases g with
  | nil => simp at hi
  | cons o rest =>
    have honm : o.nMax = nm := hnm o (List.mem_cons_self o rest)
    have hu : uniformNMax (o :: rest) = true := by
      simp only [uniformNMax, List.all_eq_true, decide_eq_true_eq]
      intro s hs
      rw [hnm s hs, honm]
    have hSeq : S = precondCore env (o :: rest) nm := by
      rw [preconditioned_scattering_matrix, if_pos hu, honm] at hS
      exact (Except.ok.inj hS).symm
    subst hSeq
    obtain ⟨hdi, hmi⟩ := blockIndex_div_mod (2 * flatMaxOf nm) i r hr
    obtain ⟨hdj, hmj⟩ := blockIndex_div_mod (2 * flatMaxOf nm) j c hc
    obtain ⟨hdi2, hmi2⟩ := blockIndex_div_mod (2 * flatMaxOf nm) i c hc
    constructor
    · intro hij
      simp only [precondCore, hdi, hdj, hmi, hmj]
      rw [precondBlockAt, if_neg hij]
    · simp only [precondCore, hdi, hmi, hdi2, hmi2]
      rw [precondBlockAt, if_pos rfl]
      rfl

/-- C1 counterexample: on the concrete uniform-degree geometry `gZ` the
assembled indirect matrix `sZ` has block (0, 1) entry (0, 3) — flat position
(0, 9) — equal to the entry of `C(0,1) · (-T_1)`, and that entry differs from
the entry of `(-T_1) · C(0,1)` the claim prescribes: the block is the product
in the opposite order. -/
theorem c1_counterexample :
    preconditioned_scattering_matrix envZ gZ = .ok sZ ∧
    sZ.entry 0 9 ≠
      (matMul (matNeg (gZ.getD 1 default).tLocal)
        (couplingBlockMat (flatMaxOf 1)
          (envZ.coupling ((gZ.getD 0 default).vR - (gZ.getD 1 default).vR) 1))).entry
        0 3 ∧
    sZ.entry 0 9 =
      (matMul
        (couplingBlockMat (flatMaxOf 1)
          (envZ.coupling ((gZ.getD 0 default).vR - (gZ.getD 1 default).vR) 1))
        (matNeg (gZ.getD 1 default).tLocal)).entry 0 3 :=
  ⟨rfl, by decide, by decide⟩

/-- C1 witness: the amended block identity applied to the concrete geometry
`gZ` at block (0, 1), offset (0, 3), and at the diagonal block 0. -/
theorem c1_witness :
    preconditioned_scattering_matrix envZ gZ = .ok sZ ∧
    ((0 ≠ 1 →
      sZ.entry (2 * flatMaxOf 1 * 0 + 0) (2 * flatMaxOf 1 * 1 + 3) =
        (matMul
          (couplingBlockMat (flatMaxOf 1)
            (envZ.coupling ((gZ.getD 0 default).vR - (gZ.getD 1 default).vR) 1))
          (matNeg (gZ.getD 1 default).tLocal)).entry 0 3) ∧
      sZ.entry (2 * flatMaxOf 1 * 0 + 0) (2 * flatMaxOf 1 * 0 + 3) =
        (if (0 : ℕ) = 3 then (1 : ℤ) else 0)) :=
  ⟨rfl,
    c1_indirect_blocks envZ gZ 1 sZ rfl
      (by intro a ha; fin_cases ha <;> rfl) 0 1 0 3
      (by decide) (by decide) (by decide) (by decide)⟩

/-- Uniformity of the degree guard: if `uniformNMax` accepts a geometry then
any two of its scatterers share the same degree. -/
theorem uniformNMax_all (g : List (Scat α V)) (h : uniformNMax g = true) :
    ∀ a ∈ g, ∀ b ∈ g, a.nMax = b.nMax := by
  cases g with
  | nil =>
    intro a ha
    simp at ha
  | cons o rest =>
    intro a ha b hb
    simp only [uniformNMax, List.all_eq_true, decide_eq_true_eq] at h
    rw [h a ha, h b hb]

/-- C2 (amended): a geometry holding two scatterers of different maximum
harmonic degree makes the indirect assembly — source-vector construction and
matrix construction alike, in both the first- and second-harmonic cases —
signal the fatal configuration error and build no system. (The direct
formulation performs no such check; see the counterexample.) -/
theorem c2_indirect_mismatch (env : Env α V) (nm : ℕ) (rFF : Option ℕ)
    (g : List (Scat α V)) (i j : ℕ) (hi : i < g.length) (hj : j < g.length)
    (hne : (g.getD i default).nMax ≠ (g.getD j default).nMax) :
    populateE env .indirect nm rFF g = .error harmonicsErr := by
  have hmi : g.getD i default ∈ g := by
    rw [List.getD_eq_getElem g default hi]
    exact List.getElem_mem hi
  have hmj : g.getD j default ∈ g := by
    rw [List.getD_eq_getElem g default hj]
    exact List.getElem_mem hj
  have hu : uniformNMax g = false := by
    cases hval : uniformNMax g
    · rfl
    · exact absurd (uniformNMax_all g hval _ hmi _ hmj) hne
  cases g with
  | nil => simp at hi
  | cons o rest =>
    cases rFF with
    | none => simp [populateE, source_vector, hu]
    | some r => simp [populateE, local_source_vector, hu]

/-- C2 counterexample: on the concrete mismatched geometry `gMis` (degrees 1
and 2) the direct assembly signals no error and builds a full 12×12 system
with a length-12 source vector, refuting the claim's coverage of the direct
formulation. -/
theorem c2_counterexample :
    (gMis.getD 0 default).nMax ≠ (gMis.getD 1 default).nMax ∧
    exceptOk (populateE envZ .direct 1 none gMis) = true ∧
    (populateDirect envZ 1 none gMis).2.1.rows = 12 ∧
    (populateDirect envZ 1 none gMis).2.2.length = 12 :=
  ⟨by decide, rfl, rfl, by decide⟩

/-- C2 witness: the amended statement applied to the concrete mismatched
geometry `gMis` in the indirect formulation. -/
theorem c2_witness :
    0 < gMis.length ∧ 1 < gMis.length ∧
    (gMis.getD 0 default).nMax ≠ (gMis.getD 1 default).nMax ∧
    populateE envZ .indirect 1 none gMis = .error harmonicsErr :=
  ⟨by decide, by decide, by decide,
    c2_indirect_mismatch envZ 1 none gMis 0 1 (by decide) (by decide) (by decide)⟩

/-- Element i of a populated geometry: the original scatterer with only its
source-coefficient buffer replaced by the newly derived local sources. -/
theorem setSourcesSingle_getD (env : Env α V) (r : ℕ) (g : List (Scat α V))
    (i : ℕ) (hi : i < g.length) :
    (setSourcesSingle env r g).getD i default =
      { g.getD i default with sourceCoef := env.derivedSource r i } := by
  unfold setSourcesSingle
  rw [List.getD_eq_getElem _ default (by simpa using hi), List.getElem_map,
    List.getElem_range]

/-- Source population preserves the number of scatterers. -/
theorem setSourcesSingle_length (env : Env α V) (r : ℕ)
    (g : List (Scat α V)) : (setSourcesSingle env r g).length = g.length := by
  simp [setSourcesSingle]

/-- A uniform-degree geometry makes the indirect second-harmonic population
succeed, returning the overwritten geometry together with the matrix and the
local source vector the component functions report. -/
theorem populateE_indirect_some (env : Env α V) (nm r : ℕ)
    (g : List (Scat α V)) (hu : uniformNMax g = true) :
    ∃ S Q, populateE env .indirect nm (some r) g =
        .ok (setSourcesSingle env r g, S, Q) ∧
      local_source_vector env r g = .ok Q ∧
      preconditioned_scattering_matrix env g = .ok S := by
  obtain ⟨Q0, hQ0⟩ : ∃ Q0, local_source_vector env r g = .ok Q0 := by
    cases g with
    | nil => exact ⟨[], rfl⟩
    | cons o rest =>
      exact ⟨_, by rw [local_source_vector, if_pos hu]⟩
  obtain ⟨S0, hS0⟩ : ∃ S0, preconditioned_scattering_matrix env g = .ok S0 := by
    cases g with
    | nil => exact ⟨_, rfl⟩
    | cons o rest =>
      exact ⟨_, by rw [preconditioned_scattering_matrix, if_pos hu]⟩
  refine ⟨S0, Q0, ?_, hQ0, hS0⟩
  simp only [populateE]
  rw [hQ0, hS0]

/-- A uniform-degree geometry makes the indirect first-harmonic population
succeed, leaving the geometry untouched and returning the matrix and the
excitation-built source vector the component functions report. -/
theorem populateE_indirect_none (env : Env α V) (nm : ℕ)
    (g : List (Scat α V)) (hu : uniformNMax g = true) :
    ∃ S Q, populateE env .indirect nm none g = .ok (g, S, Q) ∧
      source_vector env g = .ok Q ∧
      preconditioned_scattering_matrix env g = .ok S := by
  obtain ⟨Q0, hQ0⟩ : ∃ Q0, source_vector env g = .ok Q0 := by
    cases g with
    | nil => exact ⟨[], rfl⟩
    | cons o rest =>
      exact ⟨_, by rw [source_vector, if_pos hu]⟩
  obtain ⟨S0, hS0⟩ : ∃ S0, preconditioned_scattering_matrix env g = .ok S0 := by
    cases g with
    | nil => exact ⟨_, rfl⟩
    | cons o rest =>
      exact ⟨_, by rw [preconditioned_scattering_matrix, if_pos hu]⟩
  refine ⟨S0, Q0, ?_, hQ0, hS0⟩
  simp only [populateE]
  rw [hQ0, hS0]

/-- A successful population stores exactly the assembled system in the solver
state. -/
theorem populateSolver_eq (env : Env α V) (s : SolverState α V)
    (g' : List (Scat α V)) (S' : MatD α) (Q' : List α)
    (h : populateE env s.method s.nMax s.resultFF s.geometry = .ok (g', S', Q')) :
    populateSolver env s = .ok { s with geometry := g', S := S', Q := Q' } := by
  rw [populateSolver, h]
  rfl

/-- C7: whenever second-harmonic source population runs — a populate with a
first-harmonic result set, in either formulation — every registry scatterer's
source-coefficient buffer is overwritten with the newly derived local sources
while all its other fields are untouched; a populate without a first-harmonic
result leaves the registry unchanged (and `solveE` never touches it at all). -/
theorem c7_buffer_overwrite (env : Env α V) (method : SolverMethod) (nm r : ℕ)
    (g : List (Scat α V)) :
    (∀ out, populateE env method nm (some r) g = .ok out →
      out.1.length = g.length ∧
      ∀ i, i < g.length →
        (out.1.getD i default).sourceCoef = env.derivedSource r i ∧
        (out.1.getD i default).vR = (g.getD i default).vR ∧
        (out.1.getD i default).nMax = (g.getD i default).nMax ∧
        (out.1.getD i default).radius = (g.getD i default).radius ∧
        (out.1.getD i default).tLocal = (g.getD i default).tLocal ∧
        (out.1.getD i default).iaux = (g.getD i default).iaux) ∧
    (∀ out, populateE env method nm none g = .ok out → out.1 = g) := by
  constructor
  · intro out hout
    have h1 : out.1 = setSourcesSingle env r g := by
      cases method with
      | direct =>
        rw [← Except.ok.inj hout]
        rfl
      | indirect =>
        simp only [populateE] at hout
        cases hQ : local_source_vector env r g with
        | error e => rw [hQ] at hout; simp at hout
        | ok Q =>
          rw [hQ] at hout
          cases hS : preconditioned_scattering_matrix env g with
          | error e => rw [hS] at hout; simp at hout
          | ok S =>
            rw [hS] at hout
            rw [← Except.ok.inj hout]
    rw [h1]
    refine ⟨setSourcesSingle_length env r g, ?_⟩
    intro i hi
    rw [setSourcesSingle_getD env r g i hi]
    exact ⟨rfl, rfl, rfl, rfl, rfl, rfl⟩
  · intro out hout
    cases method with
    | direct =>
      rw [← Except.ok.inj hout]
      rfl
    | indirect =>
      simp only [populateE] at hout
      cases hQ : source_vector env g with
      | error e => rw [hQ] at hout; simp at hout
      | ok Q =>
        rw [hQ] at hout
        cases hS : preconditioned_scattering_matrix env g with
        | error e => rw [hS] at hout; simp at hout
        | ok S =>
          rw [hS] at hout
          rw [← Except.ok.inj hout]

/-- C7 witness: a concrete second-harmonic populate on `gZ` overwrites
scatterer 0's buffer with the derived sources while keeping its center, and
the corresponding first-harmonic populate leaves the geometry unchanged. -/
theorem c7_witness :
    populateE envZ .direct 1 (some 3) gZ = .ok (populateDirect envZ 1 (some 3) gZ) ∧
    ((populateDirect envZ 1 (some 3) gZ).1.getD 0 default).sourceCoef =
      envZ.derivedSource 3 0 ∧
    ((populateDirect envZ 1 (some 3) gZ).1.getD 0 default).vR =
      (gZ.getD 0 default).vR ∧
    (populateDirect envZ 1 none gZ).1 = gZ :=
  ⟨rfl,
    (((c7_buffer_overwrite envZ .direct 1 3 gZ).1
        (populateDirect envZ 1 (some 3) gZ) rfl).2 0 (by decide)).1,
    ((((c7_buffer_overwrite envZ .direct 1 3 gZ).1
        (populateDirect envZ 1 (some 3) gZ) rfl).2 0 (by decide)).2).1,
    (c7_buffer_overwrite envZ .direct 1 3 gZ).2
      (populateDirect envZ 1 none gZ) rfl⟩

/-- C9: calling the second-harmonic setter with a result pointer different
from the one held re-populates the system — the rebuilt Q is exactly the
second-harmonic local source vector for the new result, the rebuilt S the
preconditioned matrix — and stores the new pointer; calling it with the
pointer already held returns the state unchanged, S and Q untouched. -/
theorem c9_sh_setter (env : Env α V) (s : SolverState α V) (rr : ℕ)
    (hm : s.method = .indirect) (hu : uniformNMax s.geometry = true)
    (hne : some rr ≠ s.resultFF) :
    (∃ s', SH env s (some rr) = .ok s' ∧ s'.resultFF = some rr ∧
      s'.method = s.method ∧ s'.nMax = s.nMax ∧
      s'.geometry = setSourcesSingle env rr s.geometry ∧
      local_source_vector env rr s.geometry = .ok s'.Q ∧
      preconditioned_scattering_matrix env s.geometry = .ok s'.S) ∧
    SH env s s.resultFF = .ok s := by
  refine ⟨?_, by rw [SH, if_pos rfl]⟩
  obtain ⟨S0, Q0, hpop, hQ0, hS0⟩ :=
    populateE_indirect_some env s.nMax rr s.geometry hu
  refine ⟨{ s with
            resultFF := some rr
            geometry := setSourcesSingle env rr s.geometry
            S := S0
            Q := Q0 }, ?_, rfl, rfl, rfl, rfl, hQ0, hS0⟩
  rw [SH, if_neg hne]
  exact populateSolver_eq env { s with resultFF := some rr }
    (setSourcesSingle env rr s.geometry) S0 Q0 (hm.symm ▸ hpop)

/-- Solver state used by the witnesses: geometry `gZ`, indirect method, no
held result, and a placeholder empty system. -/
def stateZ : SolverState ℤ ℤ where
  geometry := gZ
  nMax := 1
  resultFF := none
  method := .indirect
  S := ⟨0, 0, fun _ _ => 0⟩
  Q := []

/-- C9 witness: the setter applied to the concrete state `stateZ` with the
fresh result pointer 5. -/
theorem c9_witness :
    stateZ.method = .indirect ∧ uniformNMax stateZ.geometry = true ∧
    some 5 ≠ stateZ.resultFF ∧
    ((∃ s', SH envZ stateZ (some 5) = .ok s' ∧ s'.resultFF = some 5 ∧
      s'.method = stateZ.method ∧ s'.nMax = stateZ.nMax ∧
      s'.geometry = setSourcesSingle envZ 5 stateZ.geometry ∧
      local_source_vector envZ 5 stateZ.geometry = .ok s'.Q ∧
      preconditioned_scattering_matrix envZ stateZ.geometry = .ok s'.S) ∧
    SH envZ stateZ stateZ.resultFF = .ok stateZ) :=
  ⟨rfl, by decide, by decide,
    c9_sh_setter envZ stateZ 5 rfl (by decide) (by decide)⟩

/-- C10: after `update` with a new geometry and degree the held
second-harmonic result pointer is cleared and the re-populated source vector
is the one built from the external excitation (the first-harmonic
`source_vector`), not from any prior first-harmonic result. -/
theorem c10_update_clears_sh (env : Env α V) (g' : List (Scat α V)) (n' : ℕ)
    (s : SolverState α V) (hm : s.method = .indirect)
    (hu : uniformNMax g' = true) :
    ∃ s', update env g' n' s = .ok s' ∧ s'.resultFF = none ∧
      s'.nMax = n' ∧ s'.geometry = g' ∧ s'.method = s.method ∧
      source_vector env g' = .ok s'.Q ∧
      preconditioned_scattering_matrix env g' = .ok s'.S := by
  obtain ⟨S0, Q0, hpop, hQ0, hS0⟩ := populateE_indirect_none env n' g' hu
  refine ⟨{ s with
            geometry := g'
            nMax := n'
            resultFF := none
            S := S0
            Q := Q0 }, ?_, rfl, rfl, rfl, rfl, hQ0, hS0⟩
  rw [update]
  exact populateSolver_eq env
    { s with geometry := g', nMax := n', resultFF := none } g' S0 Q0
    (hm.symm ▸ hpop)

/-- Solver state holding a second-harmonic result pointer, for the C10
witness. -/
def stateZSH : SolverState ℤ ℤ := { stateZ with resultFF := some 9 }

/-- C10 witness: updating the concrete state `stateZSH` (which holds result
pointer 9) with geometry `gZ` and degree 1 clears the pointer and rebuilds
from the excitation. -/
theorem c10_witness :
    stateZSH.method = .indirect ∧ uniformNMax gZ = true ∧
    stateZSH.resultFF = some 9 ∧
    ∃ s', update envZ gZ 1 stateZSH = .ok s' ∧ s'.resultFF = none ∧
      s'.nMax = 1 ∧ s'.geometry = gZ ∧ s'.method = stateZSH.method ∧
      source_vector envZ gZ = .ok s'.Q ∧
      preconditioned_scattering_matrix envZ gZ = .ok s'.S :=
  ⟨rfl, by decide, rfl, c10_update_clears_sh envZ gZ 1 stateZSH rfl (by decide)⟩

/-- A solve on an empty geometry whose backend returns the empty solution
yields empty scattered and internal vectors without error. -/
theorem solveE_nil (lin : MatD α → List α → List α) (s : SolverState α V)
    (hg : s.geometry = []) (hx : lin s.S s.Q = []) :
    solveE lin true s = .ok ([], []) := by
  rw [solveE, if_pos rfl, hg, hx]
  cases hmeth : s.method with
  | direct => simp [hmeth, solveInternal]
  | indirect => simp [hmeth, convertIndirect, solveInternal]

/-- C6: a geometry with zero scatterers assembles into a size-zero system
matrix and an empty source vector without error, and the solve pipeline
returns empty scattered and internal coefficient vectors without error. -/
theorem c6_empty_geometry (env : Env α V) (lin : MatD α → List α → List α)
    (hlin : ∀ A b, (lin A b).length = A.cols)
    (s : SolverState α V) (hg : s.geometry = []) :
    ∃ s', populateSolver env s = .ok s' ∧ s'.S.rows = 0 ∧ s'.S.cols = 0 ∧
      s'.Q = [] ∧ s'.geometry = [] ∧ solveE lin true s' = .ok ([], []) := by
  obtain ⟨S0, hpop, hrows, hcols⟩ :
      ∃ S0, populateE env s.method s.nMax s.resultFF s.geometry =
          .ok ([], S0, []) ∧ S0.rows = 0 ∧ S0.cols = 0 := by
    rw [hg]
    rcases s.method with _ | _ <;> rcases s.resultFF with _ | r <;>
      exact ⟨_, rfl, rfl, rfl⟩
  refine ⟨{ s with geometry := [], S := S0, Q := [] },
    populateSolver_eq env s [] S0 [] hpop, hrows, hcols, rfl, rfl, ?_⟩
  have hx : lin S0 [] = [] := List.length_eq_zero.mp (by rw [hlin]; exact hcols)
  exact solveE_nil lin _ rfl hx

/-- Backend used by the C6 witness: returns the zero vector of the expected
size. -/
def linZ : MatD ℤ → List ℤ → List ℤ := fun A _ => List.replicate A.cols 0

/-- Empty-geometry solver state used by the C6 witness. -/
def stateEmptyZ : SolverState ℤ ℤ where
  geometry := []
  nMax := 1
  resultFF := none
  method := .indirect
  S := ⟨0, 0, fun _ _ => 0⟩
  Q := []

/-- C6 witness: the empty-geometry property at the concrete state
`stateEmptyZ` with the concrete backend `linZ`. -/
theorem c6_witness :
    (∀ A b, (linZ A b).length = A.cols) ∧ stateEmptyZ.geometry = [] ∧
    ∃ s', populateSolver envZ stateEmptyZ = .ok s' ∧ s'.S.rows = 0 ∧
      s'.S.cols = 0 ∧ s'.Q = [] ∧ s'.geometry = [] ∧
      solveE linZ true s' = .ok ([], []) :=
  ⟨fun A _ => List.length_replicate A.cols 0, rfl,
    c6_empty_geometry envZ linZ (fun A _ => List.length_replicate A.cols 0)
      stateEmptyZ rfl⟩

/-- Flattening uniform-length blocks multiplies the lengths. -/
theorem flatten_length_uniform (L : List (List α)) (N : ℕ)
    (h : ∀ l ∈ L, l.length = N) : L.flatten.length = L.length * N := by
  induction L with
  | nil => simp
  | cons a t ih =>
    simp only [List.flatten_cons, List.length_append, List.length_cons]
    rw [h a (List.mem_cons_self a t),
      ih (fun l hl => h l (List.mem_cons_of_mem a hl))]
    ring

/-- Block j of a flattening of uniform-length blocks is the j-th block. -/
theorem flatten_drop_take_uniform (L : List (List α)) (N : ℕ)
    (h : ∀ l ∈ L, l.length = N) (j : ℕ) (hj : j < L.length) :
    (L.flatten.drop (j * N)).take N = L.getD j [] := by
  induction L generalizing j with
  | nil => simp at hj
  | cons a t ih =>
    have ha := h a (List.mem_cons_self a t)
    cases j with
    | zero =>
      simp only [Nat.zero_mul, List.drop_zero, List.flatten_cons,
        List.getD_cons_zero]
      rw [← ha, List.take_left]
    | succ j' =>
      have hdrop : (a ++ t.flatten).drop N = t.flatten := by
        rw [← ha]
        exact List.drop_left a t.flatten
      simp only [List.flatten_cons, List.getD_cons_succ]
      rw [Nat.succ_mul, add_comm (j' * N) N, ← List.drop_drop, hdrop]
      exact ih (fun l hl => h l (List.mem_cons_of_mem a hl)) j'
        (by simpa using Nat.lt_of_succ_lt_succ (by simpa using hj))

/-- C8: the derived internal-field vector has the same length as the
scattered vector and, for each scatterer j, its block j is the element-wise
product of scatterer j's internal-auxiliary diagonal operator with block j of
the scattered vector — so each block depends only on that scatterer's
operator and that block. -/
theorem c8_internal_blocks (g : List (Scat α V)) (nm : ℕ) (x : List α)
    (hiaux : ∀ s ∈ g, s.iaux.length = 2 * flatMaxOf nm)
    (hx : x.length = g.length * (2 * flatMaxOf nm)) :
    (solveInternal g x).length = x.length ∧
    ∀ j, j < g.length →
      ((solveInternal g x).drop (j * (2 * flatMaxOf nm))).take
          (2 * flatMaxOf nm) =
        List.zipWith (fun a b => a * b) (g.getD j default).iaux
          ((x.drop (j * (2 * flatMaxOf nm))).take (2 * flatMaxOf nm)) := by
  have hmap : ∀ l ∈ g.map (fun s => s.iaux), l.length = 2 * flatMaxOf nm := by
    intro l hl
    obtain ⟨s, hs, rfl⟩ := List.mem_map.mp hl
    exact hiaux s hs
  have hflat : (g.map (fun s => s.iaux)).flatten.length =
      g.length * (2 * flatMaxOf nm) := by
    rw [flatten_length_uniform _ _ hmap, List.length_map]
  constructor
  · rw [solveInternal, List.length_zipWith, hflat, hx, min_self]
  · intro j hj
    rw [solveInternal, List.drop_zipWith, List.take_zipWith,
      flatten_drop_take_uniform _ _ hmap j (by simpa using hj)]
    congr 1
    rw [List.getD_eq_getElem _ _ (by simpa using hj), List.getElem_map,
      List.getD_eq_getElem _ _ hj]

/-- Concrete scattered vector of length 12 for the C8 witness. -/
def xZ : List ℤ := [1, 2, 3, 4, 5, 6, 7, 8, 9, 10, 11, 12]

/-- C8 witness: the internal-field block law at the concrete geometry `gZ`
and scattered vector `xZ`. -/
theorem c8_witness :
    (∀ s ∈ gZ, s.iaux.length = 2 * flatMaxOf 1) ∧
    xZ.length = gZ.length * (2 * flatMaxOf 1) ∧
    ((solveInternal gZ xZ).length = xZ.length ∧
      ∀ j, j < gZ.length →
        ((solveInternal gZ xZ).drop (j * (2 * flatMaxOf 1))).take
            (2 * flatMaxOf 1) =
          List.zipWith (fun a b => a * b) (gZ.getD j default).iaux
            ((xZ.drop (j * (2 * flatMaxOf 1))).take (2 * flatMaxOf 1))) :=
  ⟨by intro s hs; fin_cases hs <;> rfl, by decide,
    c8_internal_blocks gZ 1 xZ (by intro s hs; fin_cases hs <;> rfl)
      (by decide)⟩
